import Mathlib

/-!
A shallow embedding of the SSZ merkleization core (`merkleization/mod.rs` of an
SSZ library): chunk packing, the zero-subtree context, the virtual-padding
Merkle tree algorithm, the naive fully-materialized reference algorithm from the
test module, and decoration mixing.  Bytes are modelled as `Nat` (values < 256),
byte buffers as `List Nat`, and the 32-byte-aligned working buffers of the tree
algorithms at chunk granularity as `List (List Nat)` (every slice access of the
original code is 32-byte aligned and 32 bytes wide).  Out-of-bounds slice
accesses, which panic in the original, are modelled by `Option`: `none` is a
panic.  All definitions use structural recursion so that concrete instances
reduce inside the kernel.
-/

/-- Big-endian byte encoding of `n` in `w` bytes (most significant first). -/
def natToBE : Nat → Nat → List Nat
  | 0, _ => []
  | w+1, n => natToBE w (n / 256) ++ [n % 256]

/-- Little-endian byte encoding of `n` in `w` bytes (least significant first). -/
def natToLE : Nat → Nat → List Nat
  | 0, _ => []
  | w+1, n => n % 256 :: natToLE w (n / 256)

/-- Interpret a byte list as a big-endian natural number. -/
def natFromBytesBE (bs : List Nat) : Nat := bs.foldl (fun acc b => acc * 256 + b) 0

/-- Right rotation of a 32-bit word. -/
def rotr32 (n x : Nat) : Nat := ((x >>> n) ||| (x <<< (32 - n))) % 4294967296

/-- The SHA-256 choice function. -/
def shaCh (x y z : Nat) : Nat := (x &&& y) ^^^ ((x ^^^ 4294967295) &&& z)

/-- The SHA-256 majority function. -/
def shaMaj (x y z : Nat) : Nat := (x &&& y) ^^^ (x &&& z) ^^^ (y &&& z)

/-- The SHA-256 big sigma-0 function. -/
def bsig0 (x : Nat) : Nat := rotr32 2 x ^^^ rotr32 13 x ^^^ rotr32 22 x

/-- The SHA-256 big sigma-1 function. -/
def bsig1 (x : Nat) : Nat := rotr32 6 x ^^^ rotr32 11 x ^^^ rotr32 25 x

/-- The SHA-256 small sigma-0 function. -/
def ssig0 (x : Nat) : Nat := rotr32 7 x ^^^ rotr32 18 x ^^^ (x >>> 3)

/-- The SHA-256 small sigma-1 function. -/
def ssig1 (x : Nat) : Nat := rotr32 17 x ^^^ rotr32 19 x ^^^ (x >>> 10)

/-- The 64 SHA-256 round constants. -/
def shaK : List Nat :=
  [1116352408, 1899447441, 3049323471, 3921009573, 961987163,
   1508970993, 2453635748, 2870763221, 3624381080, 310598401,
   607225278, 1426881987, 1925078388, 2162078206, 2614888103,
   3248222580, 3835390401, 4022224774, 264347078, 604807628,
   770255983, 1249150122, 1555081692, 1996064986, 2554220882,
   2821834349, 2952996808, 3210313671, 3336571891, 3584528711,
   113926993, 338241895, 666307205, 773529912, 1294757372,
   1396182291, 1695183700, 1986661051, 2177026350, 2456956037,
   2730485921, 2820302411, 3259730800, 3345764771, 3516065817,
   3600352804, 4094571909, 275423344, 430227734, 506948616,
   659060556, 883997877, 958139571, 1322822218, 1537002063,
   1747873779, 1955562222, 2024104815, 2227730452, 2361852424,
   2428436474, 2756734187, 3204031479, 3329325298]

/-- The eight SHA-256 working registers. -/
structure SHAState where
  a : Nat
  b : Nat
  c : Nat
  d : Nat
  e : Nat
  f : Nat
  g : Nat
  h : Nat
deriving DecidableEq

/-- The SHA-256 initial hash value. -/
def shaIV : SHAState where
  a := 1779033703
  b := 3144134277
  c := 1013904242
  d := 2773480762
  e := 1359893119
  f := 2600822924
  g := 528734635
  h := 1541459225

/-- Extend a message-schedule word list by its next word. -/
def scheduleStep (w : List Nat) : List Nat :=
  w ++ [(w.getD (w.length - 16) 0 + ssig0 (w.getD (w.length - 15) 0) +
         w.getD (w.length - 7) 0 + ssig1 (w.getD (w.length - 2) 0)) % 4294967296]

/-- Extend a message-schedule word list by `t` further words. -/
def schedule : Nat → List Nat → List Nat
  | 0, w => w
  | t+1, w => schedule t (scheduleStep w)

/-- One SHA-256 compression round; `kw` is the round constant plus schedule word. -/
def roundStep (s : SHAState) (kw : Nat) : SHAState :=
  { a := ((s.h + bsig1 s.e + shaCh s.e s.f s.g + kw) % 4294967296 +
          (bsig0 s.a + shaMaj s.a s.b s.c) % 4294967296) % 4294967296
    b := s.a
    c := s.b
    d := s.c
    e := (s.d + (s.h + bsig1 s.e + shaCh s.e s.f s.g + kw) % 4294967296) % 4294967296
    f := s.e
    g := s.f
    h := s.g }

/-- Compress one 16-word block into the running SHA-256 state. -/
def compressBlock (st : SHAState) (block : List Nat) : SHAState :=
  let w := schedule 48 block
  let kw := List.zipWith (fun k x => (k + x) % 4294967296) shaK w
  let r := kw.foldl roundStep st
  ⟨(st.a + r.a) % 4294967296, (st.b + r.b) % 4294967296,
   (st.c + r.c) % 4294967296, (st.d + r.d) % 4294967296,
   (st.e + r.e) % 4294967296, (st.f + r.f) % 4294967296,
   (st.g + r.g) % 4294967296, (st.h + r.h) % 4294967296⟩

/-- Read `t` big-endian 32-bit words off the front of a byte list. -/
def bytesToWords : Nat → List Nat → List Nat
  | 0, _ => []
  | t+1, bs => natFromBytesBE (bs.take 4) :: bytesToWords t (bs.drop 4)

/-- SHA-256 padding: a `0x80` byte, zero bytes to 56 mod 64, and the bit length. -/
def padMessage (msg : List Nat) : List Nat :=
  msg ++ 128 :: List.replicate ((119 - msg.length % 64) % 64) 0 ++ natToBE 8 (8 * msg.length)

/-- Split a padded byte list into `t` blocks of 16 words. -/
def toBlocksWords : Nat → List Nat → List (List Nat)
  | 0, _ => []
  | t+1, bs => bytesToWords 16 (bs.take 64) :: toBlocksWords t (bs.drop 64)

/-- SHA-256 of a byte list, as the 32 digest bytes. -/
def sha256 (msg : List Nat) : List Nat :=
  let padded := padMessage msg
  let s := (toBlocksWords (padded.length / 64) padded).foldl compressBlock shaIV
  natToBE 4 s.a ++ natToBE 4 s.b ++ natToBE 4 s.c ++ natToBE 4 s.d ++
  natToBE 4 s.e ++ natToBE 4 s.f ++ natToBE 4 s.g ++ natToBE 4 s.h

/-- The 32-byte all-zero chunk. -/
def zeroChunk : List Nat := List.replicate 32 0

/-- `hash_nodes`: the SHA-256 digest of the concatenation of two nodes
(the original updates one hasher with `a` then `b` and finalizes). -/
def hash_nodes (a b : List Nat) : List Nat := sha256 (a ++ b)

/-- `BYTES_PER_CHUNK`. -/
def BYTES_PER_CHUNK : Nat := 32

/-- `MAX_MERKLE_TREE_DEPTH`. -/
def MAX_MERKLE_TREE_DEPTH : Nat := 64

/-- One iteration of the `compute_zero_hashes` loop: chunk `i+1` becomes the
hash of chunk `i` with itself. -/
def czStep (buffer : List (List Nat)) (i : Nat) : List (List Nat) :=
  buffer.set (i + 1) (hash_nodes (buffer.getD i zeroChunk) (buffer.getD i zeroChunk))

/-- `compute_zero_hashes`: a 64-chunk buffer, initially all zero, where the
loop runs `i = 0 .. MAX_MERKLE_TREE_DEPTH - 2` writing chunk `i+1`.
The byte buffer of the original is modelled at 32-byte chunk granularity. -/
def compute_zero_hashes : List (List Nat) :=
  (List.range (MAX_MERKLE_TREE_DEPTH - 1)).foldl czStep
    (List.replicate MAX_MERKLE_TREE_DEPTH zeroChunk)

/-- `Context`: the precomputed zero-subtree hashes. -/
structure Context where
  zero_hashes : List (List Nat)

/-- `Context::new`. -/
def Context.new : Context := ⟨compute_zero_hashes⟩

/-- `Index<usize> for Context`: the 32-byte slice at chunk `i`; an
out-of-bounds slice (a panic in the original) is `none`. -/
def Context.index (context : Context) (i : Nat) : Option (List Nat) :=
  context.zero_hashes[i]?

/-- `pack_bytes`: right-pad a buffer with zero bytes to a multiple of
`BYTES_PER_CHUNK`. -/
def pack_bytes (buffer : List Nat) : List Nat :=
  if buffer.length % 32 ≠ 0 then
    buffer ++ List.replicate (32 - buffer.length % 32) 0
  else buffer

/-- Serialize each value in order into one buffer, propagating the first
failure: the loop of `pack` before its `pack_bytes` call.  The serializer for
the element type is a parameter (it is a collaborator of this core). -/
def serialize_all {α : Type} (ser : α → Option (List Nat)) : List α → Option (List Nat)
  | [] => some []
  | v :: vs =>
    match ser v, serialize_all ser vs with
    | some b, some rest => some (b ++ rest)
    | _, _ => none

/-- `pack`: serializations of `values` packed into a buffer whose length is a
multiple of `BYTES_PER_CHUNK`. -/
def pack {α : Type} (ser : α → Option (List Nat)) (values : List α) : Option (List Nat) :=
  (serialize_all ser values).map pack_bytes

/-- The errors of this layer (`SerializationError` carries an opaque
collaborator error). -/
inductive MerkleizationError where
  | SerializationError : MerkleizationError
  | PartialChunk : List Nat → Nat → MerkleizationError
  | InputExceedsLimit : Nat → MerkleizationError
deriving DecidableEq

/-- `usize::trailing_zeros`, which is 64 on input 0.  The first argument is
structural fuel, at least the bit size of the input. -/
def tzGo : Nat → Nat → Nat
  | _, 0 => 64
  | 0, _+1 => 0
  | f+1, n+1 => if (n + 1) % 2 = 1 then 0 else tzGo f ((n + 1) / 2) + 1

/-- `usize::trailing_zeros`. -/
def trailingZeros (n : Nat) : Nat := tzGo n n

/-- `usize::next_power_of_two`: the smallest power of two that is not below
the input (1 on inputs 0 and 1). -/
def next_power_of_two (n : Nat) : Nat :=
  if n ≤ 1 then 1 else 2 * next_power_of_two ((n + 1) / 2)
termination_by n
decreasing_by omega

/-- The chunks of a byte buffer: 32-byte slices, the last possibly short if
the buffer length is not a multiple of 32. -/
def toChunks (b : List Nat) : List (List Nat) :=
  (List.range ((b.length + 31) / 32)).map (fun i => (b.drop (32 * i)).take 32)

/-- The inner loop of `merkleize_chunks_with_virtual_padding` at one level,
at chunk granularity: the pair at even index `i` is hashed into slot `i / 2`.
`i < last_index` is the fully-real case, `i = last_index` pairs the last real
node with the zero-subtree hash from the context, and `i > last_index` is the
`break`.  The first argument counts the remaining loop iterations (the
original iterates `i` over `(0..2^k).step_by(2)`, which is `2^(k-1)`
iterations); a buffer access that would panic is `none`. -/
def merkleizeLevel (context : Context) (depth lastIndex : Nat) :
    Nat → Nat → List (List Nat) → Option (List (List Nat))
  | 0, _, layer => some layer
  | t+1, i, layer =>
    if i < lastIndex then
      match layer[i]?, layer[i + 1]? with
      | some l, some r =>
        merkleizeLevel context depth lastIndex t (i + 2) (layer.set (i / 2) (hash_nodes l r))
      | _, _ => none
    else if i = lastIndex then
      match layer[i]?, context.index depth with
      | some l, some r =>
        merkleizeLevel context depth lastIndex t (i + 2) (layer.set (i / 2) (hash_nodes l r))
      | _, _ => none
    else some layer

/-- The outer loop of `merkleize_chunks_with_virtual_padding`: levels
`k = height-1, …, 1`, each hashing pairs at depth `height - k - 1` and then
halving `last_index`. -/
def runLevels (context : Context) (height : Nat) :
    Nat → Nat → List (List Nat) → Option (List (List Nat))
  | 0, _, layer => some layer
  | k+1, lastIndex, layer =>
    match merkleizeLevel context (height - (k + 1) - 1) lastIndex (2 ^ k) 0 layer with
    | some layer2 => runLevels context height k (lastIndex / 2) layer2
    | none => none

/-- `merkleize_chunks_with_virtual_padding`: the root of the Merkleization of
the binary tree whose bottom layer is `chunks` padded virtually to
`leaf_count` leaves; `none` models a panic. -/
def merkleize_chunks_with_virtual_padding (chunks : List Nat) (leaf_count : Nat)
    (context : Context) : Option (List Nat) :=
  let chunk_count := chunks.length / 32
  let height := trailingZeros leaf_count + 1
  if chunk_count = 0 then context.index (height - 1)
  else
    match runLevels context height (height - 1) (chunk_count - 1) (toChunks chunks) with
    | some layer => layer.head?
    | none => none

/-- `merkleize`: reject inputs over the declared limit, take `leaf_count` as
the next power of two of the limit (or of the chunk count without one), and
delegate to the virtual-padding algorithm.  The outer `Option` models panics,
the inner `Except` the returned `Result`. -/
def merkleize (chunks : List Nat) (limit : Option Nat) (context : Context) :
    Option (Except MerkleizationError (List Nat)) :=
  let chunk_count := chunks.length / 32
  match limit with
  | some l =>
    if l < chunk_count then some (Except.error (MerkleizationError.InputExceedsLimit l))
    else (merkleize_chunks_with_virtual_padding chunks (next_power_of_two l) context).map Except.ok
  | none =>
    (merkleize_chunks_with_virtual_padding chunks (next_power_of_two chunk_count) context).map Except.ok

/-- Copy `data` over `buffer` starting at chunk `offset` (the
`copy_from_slice` into the zero-initialized naive buffer). -/
def copy_into (buffer : List (List Nat)) (offset : Nat) (data : List (List Nat)) :
    List (List Nat) :=
  buffer.take offset ++ data ++ buffer.drop (offset + data.length)

/-- The explicit zero-chunk writes of the naive algorithm: chunk slot
`leaf_start + i` is zeroed for `i` in `from .. to` (the original iterates `i`
over `chunks.len()..leaf_count`; the buffer is already zero there). -/
def zero_pad_leaves (buffer : List (List Nat)) (leaf_start lo hi : Nat) :
    List (List Nat) :=
  (List.range' lo (hi - lo)).foldl (fun b i => b.set (leaf_start + i) zeroChunk) buffer

/-- The hashing loop of the naive `merkleize_chunks`: parents at heap indices
`p = count-1, …, 0`, each the hash of children `2p+1` and `2p+2` (the original
iterates the right-child byte index `i` over `(1..node_count).rev().step_by(2)`
with `parent_index = (i - 1) / 2`). -/
def naiveLoop : Nat → List (List Nat) → List (List Nat)
  | 0, buffer => buffer
  | p+1, buffer =>
    naiveLoop p (buffer.set p
      (hash_nodes (buffer.getD (2 * p + 1) zeroChunk) (buffer.getD (2 * p + 2) zeroChunk)))

/-- The naive fully-materialized `merkleize_chunks` of the test module: a heap
of `2 * leaf_count - 1` chunks, leaves at the back, hashed bottom-up. -/
def merkleize_chunks (chunks : List Nat) (leaf_count : Nat) : List Nat :=
  let node_count := 2 * leaf_count - 1
  let interior_count := node_count - leaf_count
  let buffer := copy_into (List.replicate node_count zeroChunk) interior_count (toChunks chunks)
  (naiveLoop interior_count
    (zero_pad_leaves buffer interior_count chunks.length leaf_count)).getD 0 zeroChunk

/-- Modelled from the spec: the `hash_tree_root` implementation for `usize`
(only its call site is in the given source).  Per the spec a scalar is packed
as a fixed-width unsigned little-endian integer, padded to one 32-byte chunk,
and merkleized; `usize` is 8 bytes wide. -/
def usize_hash_tree_root (n : Nat) (context : Context) : Option (List Nat) :=
  match merkleize (pack_bytes (natToLE 8 n)) none context with
  | some (Except.ok root) => some root
  | _ => none

/-- `mix_in_decoration`: the hash of the root with the hash tree root of the
decoration scalar; the `expect` on a failed scalar merkleization is a panic,
modelled as `none`. -/
def mix_in_decoration (root : List Nat) (decoration : Nat) (context : Context) :
    Option (List Nat) :=
  match usize_hash_tree_root decoration context with
  | some d => some (hash_nodes root d)
  | none => none

/-- `mix_in_length`. -/
def mix_in_length (root : List Nat) (length : Nat) (context : Context) : Option (List Nat) :=
  mix_in_decoration root length context

/-- `mix_in_selector`. -/
def mix_in_selector (root : List Nat) (selector : Nat) (context : Context) : Option (List Nat) :=
  mix_in_decoration root selector context

/-- The ideal zero-subtree hash at a given depth: depth 0 is the zero chunk,
and each further depth hashes the previous one with itself. -/
def zhIdeal : Nat → List Nat
  | 0 => zeroChunk
  | d+1 => hash_nodes (zhIdeal d) (zhIdeal d)

/-- One level of bottom-up hashing over the real nodes of a layer: pairs are
hashed, and an unpaired last node is hashed with the zero-subtree hash of the
current depth. -/
def levelUp (depth : Nat) : List (List Nat) → List (List Nat)
  | [] => []
  | [a] => [hash_nodes a (zhIdeal depth)]
  | a :: b :: rest => hash_nodes a b :: levelUp depth rest

/-- The root of a perfect binary tree of height `d` whose leaves are the roots
of height-`j` subtrees listed in `ns`, padded on the right with zero
subtrees. -/
def subRoot (j : Nat) : Nat → List (List Nat) → List Nat
  | 0, ns => ns.headD (zhIdeal j)
  | d+1, ns => hash_nodes (subRoot j d (ns.take (2 ^ d))) (subRoot j d (ns.drop (2 ^ d)))

/-- The value a heap slot of the naive algorithm must end with: interior slots
hash their two children, leaf slots read the padded leaf layer. -/
def rootAt (leaves : List (List Nat)) (ic : Nat) (q : Nat) : List Nat :=
  if q < ic then
    hash_nodes (rootAt leaves ic (2 * q + 1)) (rootAt leaves ic (2 * q + 2))
  else leaves.getD (q - ic) zeroChunk
termination_by 2 * ic - q
decreasing_by all_goals omega

theorem natToBE_length (w : Nat) : ∀ n, (natToBE w n).length = w := by
  induction w with
  | zero => intro n; rfl
  | succ w ih => intro n; simp [natToBE, ih]

theorem natToLE_length (w : Nat) : ∀ n, (natToLE w n).length = w := by
  induction w with
  | zero => intro n; rfl
  | succ w ih => intro n; simp [natToLE, ih]

theorem sha256_length (msg : List Nat) : (sha256 msg).length = 32 := by
  simp [sha256, natToBE_length]

theorem hash_nodes_length (a b : List Nat) : (hash_nodes a b).length = 32 :=
  sha256_length _

theorem zeroChunk_length : zeroChunk.length = 32 := by simp [zeroChunk]

theorem zhIdeal_length (d : Nat) : (zhIdeal d).length = 32 := by
  cases d with
  | zero => exact zeroChunk_length
  | succ d => exact hash_nodes_length _ _

theorem pack_bytes_length (b : List Nat) :
    (pack_bytes b).length = 32 * ((b.length + 31) / 32) := by
  rw [pack_bytes]
  split_ifs with h
  · rw [ne_eq] at h
    simp only [List.length_append, List.length_replicate]
    omega
  · rw [ne_eq, not_not] at h
    omega

theorem pack_bytes_mod (b : List Nat) : (pack_bytes b).length % 32 = 0 := by
  rw [pack_bytes_length]; omega

theorem pack_bytes_take (b : List Nat) : (pack_bytes b).take b.length = b := by
  rw [pack_bytes]
  split_ifs with h
  · exact List.take_left b _
  · exact List.take_length b

theorem pack_bytes_drop (b : List Nat) :
    (pack_bytes b).drop b.length = List.replicate ((pack_bytes b).length - b.length) 0 := by
  rw [pack_bytes]
  split_ifs with h
  · rw [List.drop_left]
    congr 1
    simp only [List.length_append, List.length_replicate]
    omega
  · simp

theorem pack_bytes_of_mod (b : List Nat) (h : b.length % 32 = 0) : pack_bytes b = b := by
  simp [pack_bytes, h]

theorem toChunks_length (b : List Nat) : (toChunks b).length = (b.length + 31) / 32 := by
  simp [toChunks]

theorem toChunks_getElem (b : List Nat) (i : Nat) (h : i < (b.length + 31) / 32) :
    (toChunks b)[i]? = some ((b.drop (32 * i)).take 32) := by
  simp [toChunks, List.getElem?_map, List.getElem?_range h]

theorem toChunks_chunk_length (b : List Nat) (h : b.length % 32 = 0) :
    ∀ c ∈ toChunks b, c.length = 32 := by
  intro c hc
  simp only [toChunks, List.mem_map, List.mem_range] at hc
  obtain ⟨i, hi, rfl⟩ := hc
  simp only [List.length_take, List.length_drop]
  omega

theorem toChunks_nil : toChunks [] = [] := rfl

theorem toChunks_single (c : List Nat) (h : c.length = 32) : toChunks c = [c] := by
  have h1 : (c.length + 31) / 32 = 1 := by omega
  rw [toChunks, h1]
  have h2 : List.range 1 = [0] := rfl
  rw [h2, List.map_cons, List.map_nil]
  rw [Nat.mul_zero, List.drop_zero, ← h, List.take_length]

theorem cz_foldl_spec (t : Nat) (ht : t ≤ 63) :
    ((List.range t).foldl czStep (List.replicate 64 zeroChunk)).length = 64 ∧
    (∀ d, d < 64 → ((List.range t).foldl czStep (List.replicate 64 zeroChunk))[d]? =
      some (if d ≤ t then zhIdeal d else zeroChunk)) := by
  induction t with
  | zero =>
    refine ⟨by simp, fun d hd => ?_⟩
    simp only [List.range_zero, List.foldl_nil]
    rw [List.getElem?_replicate, if_pos hd]
    cases d with
    | zero => rw [if_pos (le_refl 0)]; rfl
    | succ d => rw [if_neg (by omega)]
  | succ t ih =>
    obtain ⟨hlen, hget⟩ := ih (by omega)
    rw [List.range_succ, List.foldl_append]
    constructor
    · simp only [List.foldl_cons, List.foldl_nil, czStep, List.length_set]
      exact hlen
    · intro d hd
      have hbt : ((List.range t).foldl czStep (List.replicate 64 zeroChunk)).getD t zeroChunk =
          zhIdeal t := by
        rw [List.getD_eq_getElem?_getD, hget t (by omega), if_pos (le_refl t)]
        rfl
      simp only [List.foldl_cons, List.foldl_nil, czStep, hbt]
      rw [List.getElem?_set]
      by_cases hdt : t + 1 = d
      · subst hdt
        rw [if_pos rfl, if_pos (by omega), if_pos (le_refl _)]
        rfl
      · rw [if_neg hdt, hget d hd]
        by_cases hle : d ≤ t
        · rw [if_pos hle, if_pos (by omega)]
        · rw [if_neg hle, if_neg (by omega)]

theorem context_new_index (d : Nat) (h : d < 64) :
    Context.new.index d = some (zhIdeal d) := by
  have hspec := (cz_foldl_spec 63 (le_refl _)).2 d h
  rw [if_pos (by omega : d ≤ 63)] at hspec
  simpa [Context.new, Context.index, compute_zero_hashes, MAX_MERKLE_TREE_DEPTH] using hspec

theorem context_new_index_none (d : Nat) (h : 64 ≤ d) : Context.new.index d = none := by
  have hlen := (cz_foldl_spec 63 (le_refl _)).1
  have h2 : compute_zero_hashes.length = 64 := by
    simpa [compute_zero_hashes, MAX_MERKLE_TREE_DEPTH] using hlen
  simp [Context.new, Context.index, List.getElem?_eq_none, h2, h]

theorem tzGo_pow (D : Nat) : ∀ f, 2 ^ D ≤ f → tzGo f (2 ^ D) = D := by
  induction D with
  | zero =>
    intro f hf
    rw [pow_zero] at hf ⊢
    cases f with
    | zero => omega
    | succ f => rfl
  | succ D ih =>
    intro f hf
    have h1 : 1 ≤ 2 ^ D := Nat.one_le_two_pow
    have h2 : 2 ^ (D + 1) = 2 ^ D * 2 := by ring
    cases f with
    | zero => omega
    | succ f =>
      obtain ⟨m, hm⟩ : ∃ m, 2 ^ (D + 1) = m + 1 := ⟨2 ^ (D + 1) - 1, by omega⟩
      rw [hm]
      have hmod : ¬ (m + 1) % 2 = 1 := by omega
      have hdiv : (m + 1) / 2 = 2 ^ D := by omega
      rw [show tzGo (f + 1) (m + 1) =
        if (m + 1) % 2 = 1 then 0 else tzGo f ((m + 1) / 2) + 1 from rfl]
      rw [if_neg hmod, hdiv, ih f (by omega)]

theorem trailingZeros_two_pow (D : Nat) : trailingZeros (2 ^ D) = D :=
  tzGo_pow D (2 ^ D) (le_refl _)

theorem next_power_of_two_ge (n : Nat) : n ≤ next_power_of_two n := by
  induction n using Nat.strong_induction_on with
  | _ n ih =>
    rw [next_power_of_two]
    split_ifs with h
    · exact h
    · have h1 : (n + 1) / 2 ≤ next_power_of_two ((n + 1) / 2) := ih _ (by omega)
      omega

theorem next_power_of_two_le_pow (n : Nat) :
    ∀ k, n ≤ 2 ^ k → next_power_of_two n ≤ 2 ^ k := by
  induction n using Nat.strong_induction_on with
  | _ n ih =>
    intro k h
    rw [next_power_of_two]
    split_ifs with h1
    · exact Nat.one_le_two_pow
    · cases k with
      | zero => rw [pow_zero] at h; omega
      | succ k =>
        have h2 : 2 ^ (k + 1) = 2 ^ k * 2 := by ring
        have h3 := ih ((n + 1) / 2) (by omega) k (by omega)
        omega

theorem next_power_of_two_is_pow (n : Nat) : ∃ D, next_power_of_two n = 2 ^ D := by
  induction n using Nat.strong_induction_on with
  | _ n ih =>
    rw [next_power_of_two]
    split_ifs with h
    · exact ⟨0, rfl⟩
    · obtain ⟨D, hD⟩ := ih ((n + 1) / 2) (by omega)
      exact ⟨D + 1, by rw [hD]; ring⟩

theorem subRoot_zero (j : Nat) (ns : List (List Nat)) :
    subRoot j 0 ns = ns.headD (zhIdeal j) := rfl

theorem subRoot_succ (j d : Nat) (ns : List (List Nat)) :
    subRoot j (d + 1) ns =
      hash_nodes (subRoot j d (ns.take (2 ^ d))) (subRoot j d (ns.drop (2 ^ d))) := rfl

theorem take_one_cons (x : List Nat) (l : List (List Nat)) : (x :: l).take 1 = [x] := rfl

theorem drop_one_cons (x : List Nat) (l : List (List Nat)) : (x :: l).drop 1 = l := rfl

theorem levelUp_length (depth : Nat) : ∀ ns : List (List Nat),
    (levelUp depth ns).length = (ns.length + 1) / 2
  | [] => rfl
  | [_] => by norm_num [levelUp]
  | a :: b :: rest => by
    simp only [levelUp, List.length_cons, levelUp_length depth rest]
    omega

theorem levelUp_take (depth : Nat) : ∀ (m : Nat) (ns : List (List Nat)),
    levelUp depth (ns.take (2 * m)) = (levelUp depth ns).take m
  | 0, ns => by simp [levelUp]
  | m+1, [] => by simp [levelUp]
  | m+1, [a] => by
    have h1 : ([a] : List (List Nat)).take (2 * (m + 1)) = [a] := by
      rw [List.take_of_length_le]
      simp; omega
    rw [h1]
    have h2 : (levelUp depth [a]).take (m + 1) = levelUp depth [a] := by
      rw [List.take_of_length_le]
      rw [levelUp_length]
      simp
    rw [h2]
  | m+1, a :: b :: rest => by
    rw [show 2 * (m + 1) = 2 * m + 1 + 1 from by ring]
    rw [List.take_succ_cons, List.take_succ_cons]
    simp only [levelUp]
    rw [levelUp_take depth m rest, List.take_succ_cons]

theorem levelUp_drop (depth : Nat) : ∀ (m : Nat) (ns : List (List Nat)),
    levelUp depth (ns.drop (2 * m)) = (levelUp depth ns).drop m
  | 0, ns => by simp
  | m+1, [] => by simp [levelUp]
  | m+1, [a] => by
    have h1 : ([a] : List (List Nat)).drop (2 * (m + 1)) = [] := by
      rw [List.drop_of_length_le]
      simp; omega
    rw [h1]
    have h2 : (levelUp depth [a]).drop (m + 1) = [] := by
      rw [List.drop_of_length_le]
      rw [levelUp_length]
      simp
    rw [h2]
    rfl
  | m+1, a :: b :: rest => by
    rw [show 2 * (m + 1) = 2 * m + 1 + 1 from by ring]
    rw [List.drop_succ_cons, List.drop_succ_cons]
    simp only [levelUp]
    rw [levelUp_drop depth m rest, List.drop_succ_cons]

theorem levelUp_getElem_pair (depth : Nat) : ∀ (p : Nat) (ns : List (List Nat)) (a b : List Nat),
    ns[2 * p]? = some a → ns[2 * p + 1]? = some b →
    (levelUp depth ns)[p]? = some (hash_nodes a b)
  | 0, [], a, b => by intro ha _; simp at ha
  | 0, [x], a, b => by intro _ hb; simp at hb
  | 0, x :: y :: rest, a, b => by
    intro ha hb
    simp only [Nat.mul_zero, List.getElem?_cons_zero, Option.some_inj] at ha
    simp only [Nat.mul_zero, Nat.zero_add, List.getElem?_cons_succ,
      List.getElem?_cons_zero, Option.some_inj] at hb
    subst ha; subst hb
    simp only [levelUp, List.getElem?_cons_zero]
  | p+1, [], a, b => by intro ha _; simp at ha
  | p+1, [x], a, b => by
    intro ha _
    rw [show 2 * (p + 1) = 2 * p + 1 + 1 from by ring] at ha
    simp at ha
  | p+1, x :: y :: rest, a, b => by
    intro ha hb
    rw [show 2 * (p + 1) = 2 * p + 1 + 1 from by ring] at ha hb
    rw [List.getElem?_cons_succ, List.getElem?_cons_succ] at ha
    rw [List.getElem?_cons_succ, List.getElem?_cons_succ] at hb
    simp only [levelUp, List.getElem?_cons_succ]
    exact levelUp_getElem_pair depth p rest a b ha hb

theorem levelUp_getElem_odd (depth : Nat) : ∀ (p : Nat) (ns : List (List Nat)) (a : List Nat),
    ns[2 * p]? = some a → ns.length = 2 * p + 1 →
    (levelUp depth ns)[p]? = some (hash_nodes a (zhIdeal depth))
  | 0, [], a => by intro ha _; simp at ha
  | 0, [x], a => by
    intro ha _
    simp only [Nat.mul_zero, List.getElem?_cons_zero, Option.some_inj] at ha
    subst ha
    simp only [levelUp, List.getElem?_cons_zero]
  | 0, x :: y :: rest, a => by
    intro _ hl
    simp only [List.length_cons] at hl
    omega
  | p+1, [], a => by intro ha _; simp at ha
  | p+1, [x], a => by
    intro _ hl
    simp only [List.length_cons, List.length_nil] at hl
    omega
  | p+1, x :: y :: rest, a => by
    intro ha hl
    rw [show 2 * (p + 1) = 2 * p + 1 + 1 from by ring] at ha hl
    rw [List.getElem?_cons_succ, List.getElem?_cons_succ] at ha
    simp only [List.length_cons] at hl
    simp only [levelUp, List.getElem?_cons_succ]
    exact levelUp_getElem_odd depth p rest a ha (by omega)

theorem subRoot_nil (j : Nat) : ∀ d, subRoot j d [] = zhIdeal (j + d)
  | 0 => rfl
  | d+1 => by
    rw [subRoot_succ, List.take_nil, List.drop_nil, subRoot_nil j d]
    rfl

theorem subRoot_levelUp (j : Nat) : ∀ (d : Nat) (ns : List (List Nat)),
    subRoot j (d + 1) ns = subRoot (j + 1) d (levelUp j ns)
  | 0, [] => by
    rw [subRoot_succ, List.take_nil, List.drop_nil, subRoot_nil j 0]
    simp only [levelUp, subRoot_zero, List.headD_nil]
    rfl
  | 0, [a] => by
    rw [subRoot_succ, pow_zero]
    rw [take_one_cons, drop_one_cons]
    simp only [subRoot_zero, List.headD_cons, List.headD_nil, levelUp]
  | 0, a :: b :: rest => by
    rw [subRoot_succ, pow_zero]
    rw [take_one_cons, drop_one_cons]
    simp only [subRoot_zero, List.headD_cons, levelUp]
  | d+1, ns => by
    rw [subRoot_succ, subRoot_levelUp j d (ns.take (2 ^ (d + 1))),
      subRoot_levelUp j d (ns.drop (2 ^ (d + 1)))]
    have ht : levelUp j (ns.take (2 ^ (d + 1))) = (levelUp j ns).take (2 ^ d) := by
      rw [show (2:Nat) ^ (d + 1) = 2 * 2 ^ d from by ring]
      exact levelUp_take j (2 ^ d) ns
    have hd2 : levelUp j (ns.drop (2 ^ (d + 1))) = (levelUp j ns).drop (2 ^ d) := by
      rw [show (2:Nat) ^ (d + 1) = 2 * 2 ^ d from by ring]
      exact levelUp_drop j (2 ^ d) ns
    rw [ht, hd2, ← subRoot_succ]

theorem subRoot_append_replicate (j : Nat) : ∀ (d t : Nat) (ns : List (List Nat)),
    subRoot j d (ns ++ List.replicate t (zhIdeal j)) = subRoot j d ns
  | 0, t, [] => by
    cases t with
    | zero => rfl
    | succ t => rw [subRoot_zero, subRoot_zero]; rfl
  | 0, t, a :: rest => by rw [subRoot_zero, subRoot_zero]; rfl
  | d+1, t, ns => by
    rw [subRoot_succ, subRoot_succ]
    rw [List.take_append_eq_append_take, List.drop_append_eq_append_drop]
    rw [List.take_replicate, List.drop_replicate]
    rw [subRoot_append_replicate j d _ (ns.take (2 ^ d)),
      subRoot_append_replicate j d _ (ns.drop (2 ^ d))]

theorem subRoot_length (j : Nat) : ∀ (d : Nat) (ns : List (List Nat)),
    (∀ c ∈ ns, c.length = 32) → (subRoot j d ns).length = 32
  | 0, [], _ => zhIdeal_length j
  | 0, a :: rest, h => by
    rw [subRoot_zero, List.headD_cons]
    exact h a (by simp)
  | d+1, ns, _ => hash_nodes_length _ _

theorem set_mid (P ORIG : List (List Nat)) (j : Nat) (v : List Nat)
    (hj : j ≤ P.length) (hO : j < ORIG.length) :
    (P.take j ++ ORIG.drop j).set j v = P.take j ++ v :: ORIG.drop (j + 1) := by
  rw [List.set_append]
  have h1 : (P.take j).length = j := by rw [List.length_take]; omega
  rw [h1, if_neg (lt_irrefl j), Nat.sub_self]
  rw [List.drop_eq_getElem_cons hO, List.set_cons_zero]

theorem merkleizeLevel_gt (context : Context) (depth lastIndex : Nat) :
    ∀ (t i : Nat) (layer : List (List Nat)), lastIndex < i →
    merkleizeLevel context depth lastIndex t i layer = some layer
  | 0, _, _, _ => rfl
  | t+1, i, layer, h => by
    simp only [merkleizeLevel]
    rw [if_neg (by omega), if_neg (by omega)]

theorem merkleizeLevel_spec (depth : Nat) (ORIG : List (List Nat)) (m : Nat)
    (hm : 0 < m) (hml : m ≤ ORIG.length)
    (hz : Context.new.index depth = some (zhIdeal depth)) :
    ∀ (t j : Nat), 2 * j ≤ m → m ≤ 2 * (j + t) →
    merkleizeLevel Context.new depth (m - 1) t (2 * j)
        ((levelUp depth (ORIG.take m)).take j ++ ORIG.drop j) =
      some (levelUp depth (ORIG.take m) ++ ORIG.drop ((m + 1) / 2)) := by
  have hPlen : (levelUp depth (ORIG.take m)).length = (m + 1) / 2 := by
    rw [levelUp_length, List.length_take]
    omega
  intro t
  induction t with
  | zero =>
    intro j hj1 hj2
    have hpm : (m + 1) / 2 = j := by omega
    simp only [merkleizeLevel]
    rw [hpm, List.take_of_length_le (by omega)]
  | succ t ih =>
    intro j hj1 hj2
    have hjP : j ≤ (m + 1) / 2 := by omega
    have htakelen : ((levelUp depth (ORIG.take m)).take j).length = j := by
      rw [List.length_take]; omega
    by_cases hlt : 2 * j < m - 1
    · obtain ⟨a, ha⟩ : ∃ a, ORIG[2 * j]? = some a :=
        ⟨_, List.getElem?_eq_getElem (by omega)⟩
      obtain ⟨b, hb⟩ : ∃ b, ORIG[2 * j + 1]? = some b :=
        ⟨_, List.getElem?_eq_getElem (by omega)⟩
      have hga2 : ((levelUp depth (ORIG.take m)).take j ++ ORIG.drop j)[2 * j]? = some a := by
        rw [List.getElem?_append_right (by rw [htakelen]; omega), htakelen,
          (show 2 * j - j = j from by omega), List.getElem?_drop,
          (show j + j = 2 * j from by ring), ha]
      have hgb2 : ((levelUp depth (ORIG.take m)).take j ++ ORIG.drop j)[2 * j + 1]? = some b := by
        rw [List.getElem?_append_right (by rw [htakelen]; omega), htakelen,
          (show 2 * j + 1 - j = j + 1 from by omega), List.getElem?_drop,
          (show j + (j + 1) = 2 * j + 1 from by ring), hb]
      have hPj : (levelUp depth (ORIG.take m))[j]? = some (hash_nodes a b) := by
        apply levelUp_getElem_pair depth j (ORIG.take m) a b
        · rw [List.getElem?_take, if_pos (by omega)]
          exact ha
        · rw [List.getElem?_take, if_pos (by omega)]
          exact hb
      have hstep : merkleizeLevel Context.new depth (m - 1) (t + 1) (2 * j)
          ((levelUp depth (ORIG.take m)).take j ++ ORIG.drop j) =
          merkleizeLevel Context.new depth (m - 1) t (2 * j + 2)
            (((levelUp depth (ORIG.take m)).take j ++ ORIG.drop j).set (2 * j / 2)
              (hash_nodes a b)) := by
        simp only [merkleizeLevel]
        rw [if_pos hlt, hga2, hgb2]
      rw [hstep, (show 2 * j / 2 = j from by omega),
        set_mid _ _ _ _ (by omega) (by omega),
        (show (levelUp depth (ORIG.take m)).take j ++
            hash_nodes a b :: ORIG.drop (j + 1) =
          (levelUp depth (ORIG.take m)).take (j + 1) ++ ORIG.drop (j + 1) from by
          rw [List.take_succ, hPj]
          simp),
        (show 2 * j + 2 = 2 * (j + 1) from by ring)]
      exact ih (j + 1) (by omega) (by omega)
    · by_cases heq : 2 * j = m - 1
      · obtain ⟨a, ha⟩ : ∃ a, ORIG[2 * j]? = some a :=
          ⟨_, List.getElem?_eq_getElem (by omega)⟩
        have hga2 : ((levelUp depth (ORIG.take m)).take j ++ ORIG.drop j)[2 * j]? = some a := by
          rw [List.getElem?_append_right (by rw [htakelen]; omega), htakelen,
            (show 2 * j - j = j from by omega), List.getElem?_drop,
            (show j + j = 2 * j from by ring), ha]
        have hPj : (levelUp depth (ORIG.take m))[j]? =
            some (hash_nodes a (zhIdeal depth)) := by
          apply levelUp_getElem_odd depth j (ORIG.take m) a
          · rw [List.getElem?_take, if_pos (by omega)]
            exact ha
          · rw [List.length_take]; omega
        have hstep : merkleizeLevel Context.new depth (m - 1) (t + 1) (2 * j)
            ((levelUp depth (ORIG.take m)).take j ++ ORIG.drop j) =
            merkleizeLevel Context.new depth (m - 1) t (2 * j + 2)
              (((levelUp depth (ORIG.take m)).take j ++ ORIG.drop j).set (2 * j / 2)
                (hash_nodes a (zhIdeal depth))) := by
          simp only [merkleizeLevel]
          rw [if_neg (by omega), if_pos heq, hga2, hz]
        rw [hstep, (show 2 * j / 2 = j from by omega),
          set_mid _ _ _ _ (by omega) (by omega),
          (show (levelUp depth (ORIG.take m)).take j ++
              hash_nodes a (zhIdeal depth) :: ORIG.drop (j + 1) =
            (levelUp depth (ORIG.take m)).take (j + 1) ++ ORIG.drop (j + 1) from by
            rw [List.take_succ, hPj]
            simp)]
        rw [merkleizeLevel_gt Context.new depth (m - 1) t (2 * j + 2) _ (by omega)]
        rw [List.take_of_length_le (by omega), (show j + 1 = (m + 1) / 2 from by omega)]
      · have hj2 : 2 * j = m := by omega
        simp only [merkleizeLevel]
        rw [if_neg (by omega), if_neg (by omega)]
        rw [List.take_of_length_le (by omega), (show j = (m + 1) / 2 from by omega)]

theorem runLevels_succ_of_some (context : Context) (height K lastIndex : Nat)
    (layer L2 : List (List Nat))
    (hL : merkleizeLevel context (height - (K + 1) - 1) lastIndex (2 ^ K) 0 layer = some L2) :
    runLevels context height (K + 1) lastIndex layer =
      runLevels context height K (lastIndex / 2) L2 := by
  simp only [runLevels]
  rw [hL]

theorem runLevels_spec (height : Nat) (hheight : height ≤ 64) :
    ∀ (K : Nat) (layer : List (List Nat)) (m : Nat), 0 < m → m ≤ layer.length →
    m ≤ 2 ^ K → K + 1 ≤ height →
    ∃ rest, runLevels Context.new height K (m - 1) layer =
      some (subRoot (height - K - 1) K (layer.take m) :: rest) := by
  intro K
  induction K with
  | zero =>
    intro layer m h1 h2 h3 _
    have hm1 : m = 1 := by omega
    subst hm1
    match layer, h2 with
    | x :: rest, _ =>
      refine ⟨rest, ?_⟩
      have hx : subRoot (height - 0 - 1) 0 ((x :: rest).take 1) = x := by
        rw [take_one_cons, subRoot_zero, List.headD_cons]
      simp only [runLevels]
      rw [hx]
  | succ K ih =>
    intro layer m h1 h2 h3 h4
    have hp : 2 ^ (K + 1) = 2 * 2 ^ K := by ring
    have hdlt : height - (K + 1) - 1 < 64 := by omega
    have hz := context_new_index (height - (K + 1) - 1) hdlt
    have hloop := merkleizeLevel_spec (height - (K + 1) - 1) layer m h1 h2 hz (2 ^ K) 0
      (by omega) (by omega)
    simp only [List.take_zero, List.drop_zero, List.nil_append, Nat.mul_zero] at hloop
    have hPlen : (levelUp (height - (K + 1) - 1) (layer.take m)).length = (m + 1) / 2 := by
      rw [levelUp_length, List.length_take]
      omega
    have hLlen : (levelUp (height - (K + 1) - 1) (layer.take m) ++
        layer.drop ((m + 1) / 2)).length = layer.length := by
      rw [List.length_append, hPlen, List.length_drop]
      omega
    obtain ⟨rest, hrest⟩ := ih
      (levelUp (height - (K + 1) - 1) (layer.take m) ++ layer.drop ((m + 1) / 2))
      ((m + 1) / 2) (by omega) (by rw [hLlen]; omega) (by omega) (by omega)
    rw [List.take_left' hPlen] at hrest
    have hKd : height - K - 1 = (height - (K + 1) - 1) + 1 := by omega
    rw [hKd, ← subRoot_levelUp] at hrest
    refine ⟨rest, ?_⟩
    rw [runLevels_succ_of_some Context.new height K (m - 1) layer _ hloop,
      (show (m - 1) / 2 = (m + 1) / 2 - 1 from by omega), hrest]

theorem mcwvp_eq_subRoot (chunks : List Nat) (D : Nat)
    (h32 : chunks.length % 32 = 0) (hD : D ≤ 63)
    (hcc : chunks.length / 32 ≤ 2 ^ D) :
    merkleize_chunks_with_virtual_padding chunks (2 ^ D) Context.new =
      some (subRoot 0 D (toChunks chunks)) := by
  simp only [merkleize_chunks_with_virtual_padding, trailingZeros_two_pow]
  by_cases hc0 : chunks.length / 32 = 0
  · rw [if_pos hc0]
    have hnil : chunks = [] := by
      rw [← List.length_eq_zero]
      omega
    subst hnil
    rw [toChunks_nil, Nat.add_sub_cancel, context_new_index D (by omega), subRoot_nil,
      Nat.zero_add]
  · rw [if_neg hc0]
    have hlen : (toChunks chunks).length = chunks.length / 32 := by
      rw [toChunks_length]; omega
    obtain ⟨rest, hrest⟩ := runLevels_spec (D + 1) (by omega) D (toChunks chunks)
      (chunks.length / 32) (by omega) (by omega) hcc (by omega)
    rw [(show D + 1 - D - 1 = 0 from by omega),
      (show (toChunks chunks).take (chunks.length / 32) = toChunks chunks from by
        rw [← hlen]; exact List.take_length _)] at hrest
    rw [Nat.add_sub_cancel, hrest]
    show (subRoot 0 D (toChunks chunks) :: rest).head? = some (subRoot 0 D (toChunks chunks))
    rw [List.head?_cons]

theorem set_getElem_self : ∀ (l : List (List Nat)) (i : Nat) (v : List Nat),
    l[i]? = some v → l.set i v = l
  | [], _, _ => by intro h; simp at h
  | x :: rest, 0, v => by
    intro h
    rw [List.getElem?_cons_zero, Option.some_inj] at h
    rw [List.set_cons_zero, h]
  | x :: rest, i+1, v => by
    intro h
    rw [List.getElem?_cons_succ] at h
    rw [List.set_cons_succ, set_getElem_self rest i v h]

theorem foldl_set_zero (ls : Nat) : ∀ (L : List Nat) (b : List (List Nat)),
    (∀ i ∈ L, ∀ v, b[ls + i]? = some v → v = zeroChunk) →
    L.foldl (fun b2 i => b2.set (ls + i) zeroChunk) b = b
  | [], _, _ => rfl
  | i :: L, b, h => by
    have hstep : b.set (ls + i) zeroChunk = b := by
      cases hb : b[ls + i]? with
      | none => exact List.set_eq_of_length_le (List.getElem?_eq_none_iff.mp hb)
      | some v =>
        have hv := h i (by simp) v hb
        rw [← hv]
        exact set_getElem_self b (ls + i) v hb
    simp only [List.foldl_cons, hstep]
    exact foldl_set_zero ls L b (fun i2 hi2 v hv => h i2 (by simp [hi2]) v hv)

theorem copy_into_replicate (nc ic : Nat) (data : List (List Nat)) (h : ic + data.length ≤ nc) :
    copy_into (List.replicate nc zeroChunk) ic data =
      (List.replicate ic zeroChunk ++ data) ++
        List.replicate (nc - ic - data.length) zeroChunk := by
  rw [copy_into, List.take_replicate, List.drop_replicate]
  have h1 : ic ⊓ nc = ic := inf_eq_left.mpr (by omega)
  rw [h1, (show nc - (ic + data.length) = nc - ic - data.length from by omega)]

theorem naiveLoop_spec (leaves : List (List Nat)) (ic nc : Nat) (hicnc : 2 * ic + 1 ≤ nc) :
    ∀ (P : Nat) (buffer : List (List Nat)), P ≤ ic → buffer.length = nc →
    (∀ q, P ≤ q → q < nc → buffer.getD q zeroChunk = rootAt leaves ic q) →
    ∀ q, q < nc → (naiveLoop P buffer).getD q zeroChunk = rootAt leaves ic q
  | 0, buffer, _, _, h => by
    intro q hq
    simp only [naiveLoop]
    exact h q (by omega) hq
  | P+1, buffer, hPic, hblen, h => by
    simp only [naiveLoop]
    apply naiveLoop_spec leaves ic nc hicnc P _ (by omega)
      (by rw [List.length_set]; exact hblen)
    intro r hr1 hr2
    have hc1 : buffer.getD (2 * P + 1) zeroChunk = rootAt leaves ic (2 * P + 1) :=
      h _ (by omega) (by omega)
    have hc2 : buffer.getD (2 * P + 2) zeroChunk = rootAt leaves ic (2 * P + 2) :=
      h _ (by omega) (by omega)
    have hR : rootAt leaves ic P =
        hash_nodes (rootAt leaves ic (2 * P + 1)) (rootAt leaves ic (2 * P + 2)) := by
      rw [rootAt, if_pos (by omega)]
    by_cases hrP : P = r
    · subst hrP
      rw [List.getD_eq_getElem?_getD, List.getElem?_set, if_pos rfl, if_pos (by omega),
        Option.getD_some, hc1, hc2, hR]
    · rw [List.getD_eq_getElem?_getD, List.getElem?_set, if_neg hrP,
        ← List.getD_eq_getElem?_getD]
      exact h r (by omega) hr2

theorem rootAt_subRoot (leaves : List (List Nat)) (D : Nat) (hl : leaves.length = 2 ^ D) :
    ∀ (d r : Nat), d ≤ D → r < 2 ^ (D - d) →
    rootAt leaves (2 ^ D - 1) (2 ^ (D - d) - 1 + r) =
      subRoot 0 d ((leaves.drop (r * 2 ^ d)).take (2 ^ d))
  | 0, r, hd, hr => by
    have h1 : 1 ≤ 2 ^ D := Nat.one_le_two_pow
    rw [Nat.sub_zero] at hr ⊢
    rw [pow_zero, Nat.mul_one]
    rw [rootAt, if_neg (by omega),
      (show 2 ^ D - 1 + r - (2 ^ D - 1) = r from by omega)]
    have hrl : r < leaves.length := by rw [hl]; omega
    rw [List.getD_eq_getElem?_getD, List.getElem?_eq_getElem hrl, Option.getD_some]
    rw [List.drop_eq_getElem_cons hrl, take_one_cons, subRoot_zero, List.headD_cons]
  | d+1, r, hd, hr => by
    have h1 : 1 ≤ 2 ^ (D - (d + 1)) := Nat.one_le_two_pow
    have h2 : 1 ≤ 2 ^ (D - d) := Nat.one_le_two_pow
    have hD1 : D - d = (D - (d + 1)) + 1 := by omega
    have hpow : 2 ^ (D - d) = 2 * 2 ^ (D - (d + 1)) := by rw [hD1]; ring
    have hpd : (2:Nat) ^ (d + 1) = 2 * 2 ^ d := by ring
    have h3 : 2 ^ (D - d) ≤ 2 ^ D := Nat.pow_le_pow_right (by omega) (by omega)
    rw [rootAt, if_pos (by omega)]
    rw [(show 2 * (2 ^ (D - (d + 1)) - 1 + r) + 1 = 2 ^ (D - d) - 1 + 2 * r from by omega),
      (show 2 * (2 ^ (D - (d + 1)) - 1 + r) + 2 = 2 ^ (D - d) - 1 + (2 * r + 1) from by omega)]
    rw [rootAt_subRoot leaves D hl d (2 * r) (by omega) (by omega),
      rootAt_subRoot leaves D hl d (2 * r + 1) (by omega) (by omega),
      subRoot_succ]
    congr 1
    · congr 1
      rw [List.take_take,
        inf_eq_left.mpr (Nat.pow_le_pow_right (by omega) (by omega)),
        (show r * 2 ^ (d + 1) = 2 * r * 2 ^ d from by rw [hpd]; ring)]
    · congr 1
      rw [List.drop_take, List.drop_drop,
        (show (2:Nat) ^ (d + 1) - 2 ^ d = 2 ^ d from by omega),
        (show r * 2 ^ (d + 1) + 2 ^ d = (2 * r + 1) * 2 ^ d from by rw [hpd]; ring)]

theorem merkleize_chunks_eq_subRoot (chunks : List Nat) (D : Nat)
    (h32 : chunks.length % 32 = 0) (hcc : chunks.length / 32 ≤ 2 ^ D) :
    merkleize_chunks chunks (2 ^ D) = subRoot 0 D (toChunks chunks) := by
  have h1 : 1 ≤ 2 ^ D := Nat.one_le_two_pow
  have hlen : (toChunks chunks).length = chunks.length / 32 := by
    rw [toChunks_length]; omega
  simp only [merkleize_chunks]
  have hic : 2 * 2 ^ D - 1 - 2 ^ D = 2 ^ D - 1 := by omega
  rw [hic, copy_into_replicate (2 * 2 ^ D - 1) (2 ^ D - 1) (toChunks chunks)
    (by rw [hlen]; omega)]
  rw [(show 2 * 2 ^ D - 1 - (2 ^ D - 1) - (toChunks chunks).length
      = 2 ^ D - chunks.length / 32 from by rw [hlen]; omega)]
  rw [List.append_assoc]
  have hnoop : zero_pad_leaves
      (List.replicate (2 ^ D - 1) zeroChunk ++
        (toChunks chunks ++ List.replicate (2 ^ D - chunks.length / 32) zeroChunk))
      (2 ^ D - 1) chunks.length (2 ^ D) =
      List.replicate (2 ^ D - 1) zeroChunk ++
        (toChunks chunks ++ List.replicate (2 ^ D - chunks.length / 32) zeroChunk) := by
    rw [zero_pad_leaves]
    apply foldl_set_zero
    intro i hi v hv
    rw [List.mem_range'_1] at hi
    rw [List.getElem?_append_right (by rw [List.length_replicate]; omega),
      List.length_replicate, (show 2 ^ D - 1 + i - (2 ^ D - 1) = i from by omega),
      List.getElem?_append_right (by rw [hlen]; omega), hlen,
      List.getElem?_replicate] at hv
    by_cases hlt : i - chunks.length / 32 < 2 ^ D - chunks.length / 32
    · rw [if_pos hlt, Option.some_inj] at hv
      exact hv.symm
    · rw [if_neg hlt] at hv
      exact absurd hv (by simp)
  rw [hnoop]
  have hinv : ∀ q, 2 ^ D - 1 ≤ q → q < 2 * 2 ^ D - 1 →
      (List.replicate (2 ^ D - 1) zeroChunk ++
        (toChunks chunks ++ List.replicate (2 ^ D - chunks.length / 32) zeroChunk)).getD
          q zeroChunk =
        rootAt (toChunks chunks ++ List.replicate (2 ^ D - chunks.length / 32) zeroChunk)
          (2 ^ D - 1) q := by
    intro q hq1 hq2
    rw [rootAt, if_neg (by omega)]
    rw [List.getD_eq_getElem?_getD,
      List.getElem?_append_right (by rw [List.length_replicate]; omega),
      List.length_replicate, ← List.getD_eq_getElem?_getD]
  rw [naiveLoop_spec
    (toChunks chunks ++ List.replicate (2 ^ D - chunks.length / 32) zeroChunk)
    (2 ^ D - 1) (2 * 2 ^ D - 1) (by omega) (2 ^ D - 1) _ (le_refl _)
    (by rw [List.length_append, List.length_append, List.length_replicate,
      List.length_replicate, hlen]; omega)
    hinv 0 (by omega)]
  have hleavlen : (toChunks chunks ++
      List.replicate (2 ^ D - chunks.length / 32) zeroChunk).length = 2 ^ D := by
    rw [List.length_append, List.length_replicate, hlen]; omega
  have h0 := rootAt_subRoot
    (toChunks chunks ++ List.replicate (2 ^ D - chunks.length / 32) zeroChunk)
    D hleavlen D 0 (le_refl D) (by rw [Nat.sub_self, pow_zero]; omega)
  rw [Nat.sub_self, pow_zero, (show (1:Nat) - 1 + 0 = 0 from rfl), Nat.zero_mul,
    List.drop_zero, List.take_of_length_le (le_of_eq hleavlen)] at h0
  rw [h0, (show zeroChunk = zhIdeal 0 from rfl)]
  exact subRoot_append_replicate 0 D _ _

theorem merkleize_single_chunk (buf : List Nat) (h : buf.length = 32) :
    merkleize buf none Context.new = some (Except.ok buf) := by
  simp only [merkleize, h]
  rw [(show (32:Nat) / 32 = 1 from by norm_num),
    (show next_power_of_two 1 = 2 ^ 0 from by rw [next_power_of_two]; norm_num),
    mcwvp_eq_subRoot buf 0 (by rw [h]) (by omega) (by rw [h]; decide),
    toChunks_single buf h, subRoot_zero, List.headD_cons, Option.map_some']

/-- C1: for every chunk buffer whose length is a multiple of 32 bytes and no
limit, `merkleize` (through the virtual-padding algorithm) returns exactly the
root computed by the naive fully-materialized algorithm `merkleize_chunks`
over `next_power_of_two(chunk_count)` leaves, which builds the full padded
tree and hashes every sibling pair bottom-up.  The chunk count is bounded by
2^63, as for any `usize`-indexed buffer. -/
theorem C1_virtual_padding_agrees_with_naive (chunks : List Nat)
    (h32 : chunks.length % 32 = 0) (hbound : chunks.length / 32 ≤ 2 ^ 63) :
    merkleize chunks none Context.new =
      some (Except.ok (merkleize_chunks chunks
        (next_power_of_two (chunks.length / 32)))) := by
  obtain ⟨D, hD⟩ := next_power_of_two_is_pow (chunks.length / 32)
  have hge := next_power_of_two_ge (chunks.length / 32)
  have hle := next_power_of_two_le_pow (chunks.length / 32) 63 hbound
  have hD63 : D ≤ 63 := by
    rw [hD] at hle
    exact (Nat.pow_le_pow_iff_right (by omega)).mp hle
  rw [hD] at hge
  simp only [merkleize]
  rw [hD, mcwvp_eq_subRoot chunks D h32 hD63 hge,
    merkleize_chunks_eq_subRoot chunks D h32 hge, Option.map_some']

/-- Witness for C1 at a concrete two-chunk input. -/
theorem C1_witness :
    ((List.replicate 64 7).length % 32 = 0 ∧
      (List.replicate 64 7).length / 32 ≤ 2 ^ 63) ∧
    merkleize (List.replicate 64 7) none Context.new =
      some (Except.ok (merkleize_chunks (List.replicate 64 7)
        (next_power_of_two ((List.replicate 64 7).length / 32)))) :=
  ⟨⟨by decide, by decide⟩,
    C1_virtual_padding_agrees_with_naive _ (by decide) (by decide)⟩

/-- C2: with a limit, `merkleize` fails with `InputExceedsLimit` exactly when
the limit is below the chunk count; otherwise it merkleizes over
`next_power_of_two(limit)` leaves, and with no limit over
`next_power_of_two(chunk_count)` leaves. -/
theorem C2_limit_error_iff (chunks : List Nat) (limit : Nat)
    (h32 : chunks.length % 32 = 0) :
    ((merkleize chunks (some limit) Context.new =
        some (Except.error (MerkleizationError.InputExceedsLimit limit))) ↔
      limit < chunks.length / 32) ∧
    (chunks.length / 32 ≤ limit →
      merkleize chunks (some limit) Context.new =
        (merkleize_chunks_with_virtual_padding chunks (next_power_of_two limit)
          Context.new).map Except.ok) ∧
    merkleize chunks none Context.new =
      (merkleize_chunks_with_virtual_padding chunks
        (next_power_of_two (chunks.length / 32)) Context.new).map Except.ok := by
  refine ⟨⟨fun h => ?_, fun h => ?_⟩, fun h => ?_, ?_⟩
  · by_contra hnot
    have hcond : ¬ (limit < chunks.length / 32) := by omega
    simp only [merkleize, if_neg hcond] at h
    cases hm : merkleize_chunks_with_virtual_padding chunks
        (next_power_of_two limit) Context.new with
    | none => rw [hm] at h; simp at h
    | some r => rw [hm] at h; simp at h
  · simp only [merkleize, if_pos h]
  · have hcond : ¬ (limit < chunks.length / 32) := by omega
    simp only [merkleize, if_neg hcond]
  · simp only [merkleize]

/-- Witness for C2: one chunk against limit 0 is rejected. -/
theorem C2_witness :
    ((List.replicate 32 0).length % 32 = 0) ∧
    merkleize (List.replicate 32 0) (some 0) Context.new =
      some (Except.error (MerkleizationError.InputExceedsLimit 0)) :=
  ⟨by decide,
    ((C2_limit_error_iff (List.replicate 32 0) 0 (by decide)).1).mpr (by decide)⟩

/-- C3: merkleizing zero chunks returns exactly the context entry at depth
`log2 leaf_count` — the precomputed all-zero-subtree hash — and `merkleize`
of an empty buffer with no limit returns the all-zero node. -/
theorem C3_empty_chunks (D : Nat) (hD : D ≤ 63) :
    merkleize_chunks_with_virtual_padding [] (2 ^ D) Context.new =
      Context.new.index D ∧
    Context.new.index D = some (zhIdeal D) ∧
    merkleize [] none Context.new = some (Except.ok (List.replicate 32 0)) := by
  refine ⟨?_, context_new_index D (by omega), ?_⟩
  · simp only [merkleize_chunks_with_virtual_padding, trailingZeros_two_pow]
    rw [if_pos (by norm_num), Nat.add_sub_cancel]
  · simp only [merkleize, List.length_nil]
    rw [(show (0:Nat) / 32 = 0 from by norm_num),
      (show next_power_of_two 0 = 2 ^ 0 from by rw [next_power_of_two]; norm_num),
      mcwvp_eq_subRoot [] 0 (by norm_num) (by omega) (by norm_num)]
    rw [toChunks_nil, subRoot_nil, Nat.zero_add, Option.map_some']
    rfl

/-- Witness for C3 at depth 0. -/
theorem C3_witness :
    ((0:Nat) ≤ 63) ∧
    (merkleize_chunks_with_virtual_padding [] (2 ^ 0) Context.new =
        Context.new.index 0 ∧
      Context.new.index 0 = some (zhIdeal 0) ∧
      merkleize [] none Context.new = some (Except.ok (List.replicate 32 0))) :=
  ⟨by decide, C3_empty_chunks 0 (by decide)⟩

/-- C4: in the table built by `Context::new`, entry 0 is the 32-byte zero
chunk, and whenever entries `i` and `i+1` both exist (the table has 64
entries) entry `i+1` is the SHA-256 hash of entry `i` concatenated with
itself.  The context is a pure value built once by `Context.new` and only
read afterwards. -/
theorem C4_zero_hash_invariant :
    Context.new.index 0 = some (List.replicate 32 0) ∧
    ∀ i, i + 1 < 64 →
      Context.new.index (i + 1) =
        (Context.new.index i).map (fun e => sha256 (e ++ e)) := by
  refine ⟨context_new_index 0 (by omega), fun i hi => ?_⟩
  rw [context_new_index i (by omega), context_new_index (i + 1) (by omega)]
  rfl

/-- Witness for C4 at the first pair of entries. -/
theorem C4_witness :
    (0 + 1 < 64) ∧
    Context.new.index (0 + 1) =
      (Context.new.index 0).map (fun e => sha256 (e ++ e)) :=
  ⟨by decide, C4_zero_hash_invariant.2 0 (by decide)⟩

set_option maxRecDepth 100000 in
/-- C5 counterexample: the claimed digest has 63 hexadecimal digits, the
number 0xf5a5fd42d16a20302798ef6ed309979b43003d2320d9f0e8ea9831a92759fb4;
the root of two zero chunks at leaf count 2, read as a big-endian number,
is not that value (its last byte is 0x4b, so the true digest ends ...fb4b). -/
theorem C5_counterexample :
    (merkleize_chunks_with_virtual_padding (List.replicate 64 0) 2
        Context.new).map natFromBytesBE ≠
      some 0xf5a5fd42d16a20302798ef6ed309979b43003d2320d9f0e8ea9831a92759fb4 := by
  decide

set_option maxRecDepth 100000 in
set_option maxHeartbeats 1000000 in
/-- C5 amended: `merkleize_chunks_with_virtual_padding` of 64 zero bytes with
leaf count 2 is SHA-256 of the two zero chunks, the digest
0xf5a5fd42d16a20302798ef6ed309979b43003d2320d9f0e8ea9831a92759fb4b (the
digest stated in the spec with its missing final hex digit restored). -/
theorem C5_root_of_two_zero_chunks :
    merkleize_chunks_with_virtual_padding (List.replicate 64 0) 2 Context.new =
      some (sha256 (List.replicate 32 0 ++ List.replicate 32 0)) ∧
    (merkleize_chunks_with_virtual_padding (List.replicate 64 0) 2
        Context.new).map natFromBytesBE =
      some 0xf5a5fd42d16a20302798ef6ed309979b43003d2320d9f0e8ea9831a92759fb4b := by
  constructor <;> decide

/-- C6 counterexample: indexing the context at depth 64 goes out of bounds
(the original panics there), so the valid depth range does not include 64. -/
theorem C6_counterexample : Context.new.index 64 = none :=
  context_new_index_none 64 (le_refl _)

/-- C6 amended: indexing the Context succeeds exactly for the depths
0 ≤ d < 64 (0..63 inclusive, not 0..64), returning the 32-byte zero-subtree
hash for that depth. -/
theorem C6_index_range (d : Nat) (hd : d < 64) :
    Context.new.index d = some (zhIdeal d) ∧ (zhIdeal d).length = 32 :=
  ⟨context_new_index d hd, zhIdeal_length d⟩

/-- Witness for C6 at depth 7. -/
theorem C6_witness :
    ((7:Nat) < 64) ∧
    (Context.new.index 7 = some (zhIdeal 7) ∧ (zhIdeal 7).length = 32) :=
  ⟨by decide, C6_index_range 7 (by decide)⟩

/-- C7: the buffer produced by `pack_bytes` has length 0 mod 32 — the
smallest multiple of 32 not below the input length — keeps the input as an
unchanged front segment (no truncation), and appends exclusively zero bytes;
`pack`, when every value serializes, is exactly `pack_bytes` of the
concatenated serializations. -/
theorem C7_pack_bytes_pads (buffer : List Nat) :
    (pack_bytes buffer).length % 32 = 0 ∧
    (pack_bytes buffer).take buffer.length = buffer ∧
    (pack_bytes buffer).drop buffer.length =
      List.replicate ((pack_bytes buffer).length - buffer.length) 0 ∧
    buffer.length ≤ (pack_bytes buffer).length ∧
    (∀ m, buffer.length ≤ 32 * m → (pack_bytes buffer).length ≤ 32 * m) ∧
    (∀ {α : Type} (ser : α → Option (List Nat)) (values : List α) (out : List Nat),
      pack ser values = some out →
      ∃ raw, serialize_all ser values = some raw ∧ out = pack_bytes raw) := by
  have hlen := pack_bytes_length buffer
  refine ⟨pack_bytes_mod buffer, pack_bytes_take buffer, pack_bytes_drop buffer,
    by omega, fun m hm => by omega, ?_⟩
  intro α ser values out hout
  simp only [pack] at hout
  cases hs : serialize_all ser values with
  | none => rw [hs] at hout; simp at hout
  | some raw =>
    rw [hs, Option.map_some'] at hout
    exact ⟨raw, rfl, (Option.some_inj.mp hout).symm⟩

/-- Witness for C7: packing a one-byte serialization of one value. -/
theorem C7_witness :
    pack (fun n : Nat => some [n]) [5] = some (5 :: List.replicate 31 0) ∧
    (∃ raw, serialize_all (fun n : Nat => some [n]) [5] = some raw ∧
      5 :: List.replicate 31 0 = pack_bytes raw) :=
  ⟨by decide, (C7_pack_bytes_pads []).2.2.2.2.2 (fun n : Nat => some [n]) [5]
    (5 :: List.replicate 31 0) (by decide)⟩

/-- C8: `pack_bytes` is idempotent: a second application changes nothing. -/
theorem C8_pack_bytes_idempotent (buffer : List Nat) :
    pack_bytes (pack_bytes buffer) = pack_bytes buffer :=
  pack_bytes_of_mod _ (pack_bytes_mod buffer)

/-- C9: `mix_in_length` and `mix_in_selector` delegate to the single routine
`mix_in_decoration`: for every root and scalar they agree, the scalar's hash
tree root is the scalar encoded as an unsigned little-endian integer in one
zero-padded 32-byte chunk, and the result is SHA-256 of the root followed by
that scalar root. -/
theorem C9_mix_in_decoration (root : List Nat) (n : Nat) :
    mix_in_length root n Context.new = mix_in_selector root n Context.new ∧
    usize_hash_tree_root n Context.new =
      some (natToLE 8 n ++ List.replicate 24 0) ∧
    mix_in_length root n Context.new =
      some (sha256 (root ++ (natToLE 8 n ++ List.replicate 24 0))) := by
  have hplen : (natToLE 8 n).length = 8 := natToLE_length 8 n
  have hpack : pack_bytes (natToLE 8 n) = natToLE 8 n ++ List.replicate 24 0 := by
    rw [pack_bytes, if_pos (by rw [hplen]; decide)]
    rw [hplen]
  have hblen : (natToLE 8 n ++ List.replicate 24 0).length = 32 := by
    rw [List.length_append, List.length_replicate, hplen]
  have hroot : usize_hash_tree_root n Context.new =
      some (natToLE 8 n ++ List.replicate 24 0) := by
    simp only [usize_hash_tree_root, hpack, merkleize_single_chunk _ hblen]
  refine ⟨rfl, hroot, ?_⟩
  simp only [mix_in_length, mix_in_decoration, hroot, hash_nodes]

/-- C10: for every 32-byte-aligned chunk buffer and every power-of-two leaf
count between the chunk count and 2^63, the virtual-padding merkleizer is
total: every buffer and context access is in bounds (no panic, modelled by
the result not being `none`) and the result is a 32-byte node. -/
theorem C10_virtual_padding_total (chunks : List Nat) (D : Nat)
    (h32 : chunks.length % 32 = 0) (hcc : chunks.length / 32 ≤ 2 ^ D)
    (hD : D ≤ 63) :
    ∃ root, merkleize_chunks_with_virtual_padding chunks (2 ^ D) Context.new =
      some root ∧ root.length = 32 :=
  ⟨subRoot 0 D (toChunks chunks), mcwvp_eq_subRoot chunks D h32 hD hcc,
    subRoot_length 0 D (toChunks chunks) (toChunks_chunk_length chunks h32)⟩

/-- Witness for C10 at one chunk and leaf count 1. -/
theorem C10_witness :
    ((List.replicate 32 1).length % 32 = 0 ∧
      (List.replicate 32 1).length / 32 ≤ 2 ^ 0 ∧ (0:Nat) ≤ 63) ∧
    ∃ root, merkleize_chunks_with_virtual_padding (List.replicate 32 1) (2 ^ 0)
        Context.new = some root ∧ root.length = 32 :=
  ⟨⟨by decide, by decide, by decide⟩,
    C10_virtual_padding_total (List.replicate 32 1) 0 (by decide) (by decide) (by decide)⟩
